import Mathlib

/-!
Verification of the pure string-transform core of gh-buddy.

Strings are modelled as `List Char`.  All functions below are shallow
embeddings of the Go source: `slugify`, `GenerateName` and the issue-type
constants come from `internal/prompt/prompt.go` (package `branch`),
`inferIssueType` / `contains` / `toLower` from `cmd/create_branch.go`, and
`extractIssueFromBranch` / `generateTitleFromBranch` / `generatePRBody`
from `cmd/create_pr.go`.

Go byte-level operations coincide with `Char`-level operations on the
inputs these functions see once non-alphanumeric runes are collapsed:
after the slug replacement step every character is ASCII, so Go's byte
length and slicing agree with list length and `take`/`drop` here.  Go's
`strings.ToLower` is modelled by its ASCII case mapping (non-ASCII runes
are replaced by a hyphen in the very next step of `slugify`, and the
local `toLower` in `cmd/create_branch.go` is byte-wise ASCII lowering by
definition).
-/

/-- Character class `[0-9]`, by code point. -/
def isDigitChar (c : Char) : Bool := 48 ≤ c.toNat && c.toNat ≤ 57

/-- Character class `[a-zA-Z0-9]` used by the `nonAlphanumeric` regexp in
`prompt.go` (complemented there). -/
def isAlnumGo (c : Char) : Bool :=
  (97 ≤ c.toNat && c.toNat ≤ 122) || (65 ≤ c.toNat && c.toNat ≤ 90) ||
    (48 ≤ c.toNat && c.toNat ≤ 57)

/-- Character class `[a-z0-9]`. -/
def isLowerAlnum (c : Char) : Bool :=
  (97 ≤ c.toNat && c.toNat ≤ 122) || (48 ≤ c.toNat && c.toNat ≤ 57)

/-- A character that can occur in a slug: lowercase alphanumeric or hyphen. -/
def goodChar (c : Char) : Bool := isLowerAlnum c || c == '-'

/-- ASCII lowercasing of one character: the `toLower` helper of
`cmd/create_branch.go` (`c >= 'A' && c <= 'Z'` gets `'a' - 'A'` added),
and the ASCII fragment of `strings.ToLower` used by `slugify`. -/
def toLowerChar (c : Char) : Char :=
  if 65 ≤ c.toNat ∧ c.toNat ≤ 90 then Char.ofNat (c.toNat + 32) else c

/-- ASCII uppercasing of one character, the fragment of `strings.ToUpper`
applied to the single-byte slice `title[:1]` in `generateTitleFromBranch`. -/
def toUpperChar (c : Char) : Char :=
  if 97 ≤ c.toNat ∧ c.toNat ≤ 122 then Char.ofNat (c.toNat - 32) else c

/-- First half of the `nonAlphanumeric.ReplaceAllString(s, "-")` step:
each character outside `[a-zA-Z0-9]` becomes a hyphen. -/
def mapNonAlnum (l : List Char) : List Char :=
  l.map fun c => if isAlnumGo c then c else '-'

/-- Second half of the replacement step: a maximal run of hyphens (the
image of a maximal run of non-alphanumeric characters) collapses to a
single hyphen, as the regexp's `+` quantifier does. -/
def squeezeHyphens : List Char → List Char
  | [] => []
  | [c] => [c]
  | c :: d :: rest =>
    if c == '-' && d == '-' then squeezeHyphens (d :: rest)
    else c :: squeezeHyphens (d :: rest)

/-- `strings.TrimRight(s, "-")`: remove every trailing hyphen. -/
def dropTrailingHyphens : List Char → List Char
  | [] => []
  | c :: rest =>
    let r := dropTrailingHyphens rest
    if r.isEmpty && c == '-' then [] else c :: r

/-- `strings.Trim(s, "-")`: remove leading and trailing hyphens. -/
def trimHyphens (l : List Char) : List Char :=
  dropTrailingHyphens (l.dropWhile fun c => c == '-')

/-- The length limit of `slugify`: `if len(s) > 60 { s = s[:60];
s = strings.TrimRight(s, "-") }`.  At this point the string is pure
ASCII, so byte length equals list length. -/
def truncate60 (l : List Char) : List Char :=
  if 60 < l.length then dropTrailingHyphens (l.take 60) else l

/-- `slugify` from `internal/prompt/prompt.go`: lowercase, replace each
maximal non-alphanumeric run with one hyphen, trim hyphens, cap at 60
characters without ending on a hyphen. -/
def slugify (s : List Char) : List Char :=
  truncate60 (trimHyphens (squeezeHyphens (mapNonAlnum (s.map toLowerChar))))

/-- The nine `IssueType` tokens of `AllIssueTypes` in
`internal/prompt/prompt.go`, as strings (Go's `IssueType` is a string
type), in declaration order. -/
def issueTypeStrings : List (List Char) :=
  ["feature".toList, "bugfix".toList, "hotfix".toList, "release".toList,
   "chore".toList, "docs".toList, "refactor".toList, "test".toList,
   "internal".toList]

/-- `ValidIssueType` from `internal/prompt/prompt.go`: membership in the
fixed issue-type set. -/
def ValidIssueType (s : List Char) : Bool :=
  issueTypeStrings.any fun t => t == s

/-- Fuel-driven decimal printer: prepend the digits of `n`, least
significant first, onto `acc`.  Structural in `fuel` so that it reduces
in the kernel; `fuel = n + 1` always suffices. -/
def natToCharsAux : Nat → Nat → List Char → List Char
  | 0, _, acc => acc
  | fuel + 1, n, acc =>
    let acc' := Nat.digitChar (n % 10) :: acc
    if n < 10 then acc' else natToCharsAux fuel (n / 10) acc'

/-- Decimal rendering of a natural number, the `%d` verb of
`fmt.Sprintf` (restricted to the non-negative values it is applied to). -/
def natToChars (n : Nat) : List Char :=
  natToCharsAux (n + 1) n []

/-- `GenerateName` from `internal/prompt/prompt.go`:
`fmt.Sprintf("%s/GH-%d-%s", issueType, issueNumber, slug)` when
`issueNumber > 0`, else `fmt.Sprintf("%s/%s", issueType, slug)`.
Go's `int` is modelled by `Int`. -/
def GenerateName (issueType : List Char) (issueNumber : Int) (title : List Char) :
    List Char :=
  let slug := slugify title
  if issueNumber > 0 then
    issueType ++ '/' :: 'G' :: 'H' :: '-' :: (natToChars issueNumber.toNat ++ '-' :: slug)
  else
    issueType ++ '/' :: slug

/-- Numeric value of a decimal digit character, as `strconv.Atoi`
accumulates it. -/
def digitVal (c : Char) : Nat := c.toNat - 48

/-- `strconv.Atoi` on a non-empty all-digit string (the only shape the
regexp capture group can produce): left fold of decimal digits. -/
def charsToNat (ds : List Char) : Nat :=
  ds.foldl (fun acc c => acc * 10 + digitVal c) 0

/-- The literal part of the `issueNumberRegex` pattern of
`cmd/create_pr.go`, namely the four characters before the capture group. -/
def ghMarker : List Char := ['/', 'G', 'H', '-']

/-- One anchored attempt of the regexp search: does `/GH-(\d+)-` match at
the head of `l`?  The greedy `\d+` takes the maximal digit run; since
`'-'` is not a digit the run cannot backtrack, so a match at this
position exists exactly when the maximal run is non-empty and followed
by a hyphen, and the capture is that run. -/
def matchGHAt (l : List Char) : Option Nat :=
  if l.take 4 = ghMarker then
    if ((l.drop 4).takeWhile isDigitChar).isEmpty then none
    else if ((l.drop 4).dropWhile isDigitChar).head? = some '-' then
      some (charsToNat ((l.drop 4).takeWhile isDigitChar))
    else none
  else none

/-- Leftmost match of `issueNumberRegex` (`FindStringSubmatch` returns
the leftmost match in RE2): scan positions left to right. -/
def findGHNumber : List Char → Option Nat
  | [] => none
  | c :: rest =>
    match matchGHAt (c :: rest) with
    | some n => some n
    | none => findGHNumber rest

/-- `extractIssueFromBranch` from `cmd/create_pr.go`: the parsed capture
of the first `/GH-(\d+)-` match, or `0` when there is no match.  (The
`strconv.Atoi` overflow error path cannot fire on values that fit in an
`int`, which is the only case the claims quantify over.) -/
def extractIssueFromBranch (branchName : List Char) : Int :=
  match findGHNumber branchName with
  | some n => (n : Int)
  | none => 0

/-- The remainder after the first `/`, when one exists: the semantics of
`strings.SplitN(branchName, "/", 2)` picking `parts[1]`. -/
def afterFirstSlash : List Char → Option (List Char)
  | [] => none
  | c :: rest => if c == '/' then some rest else afterFirstSlash rest

/-- The type-part removal of `generateTitleFromBranch`: keep the whole
name when it has no `/`, else keep what follows the first `/`. -/
def dropTypePart (l : List Char) : List Char :=
  match afterFirstSlash l with
  | some t => t
  | none => l

/-- `regexp.MustCompile(` followed by the anchored pattern backslash-d+-
`).ReplaceAllString(title, "")`: remove one leading digit run followed
by a hyphen, when present (the `^` anchor limits the replacement to a
single match at position 0; greedy `\d+` cannot backtrack past a
non-hyphen). -/
def stripLeadingDigits (l : List Char) : List Char :=
  let ds := l.takeWhile isDigitChar
  if ds.isEmpty then l
  else
    match l.dropWhile isDigitChar with
    | '-' :: rest => rest
    | _ => l

/-- `strings.ToUpper(title[:1]) + title[1:]` guarded by `len(title) > 0`. -/
def capitalizeFirst : List Char → List Char
  | [] => []
  | c :: rest => toUpperChar c :: rest

/-- `generateTitleFromBranch` from `cmd/create_pr.go`: drop the part up
to the first `/`, strip a leading digit run plus hyphen, turn hyphens
into spaces, uppercase the first character. -/
def generateTitleFromBranch (branchName : List Char) : List Char :=
  capitalizeFirst
    ((stripLeadingDigits (dropTypePart branchName)).map fun c =>
      if c == '-' then ' ' else c)

/-- The two fields of `ghapi.Issue` that `generatePRBody` reads. -/
structure Issue where
  number : Nat
  body : List Char

/-- `generatePRBody` from `cmd/create_pr.go`: the exact sequence of
`WriteString` calls on the string builder, for the issue and no-issue
cases. -/
def generatePRBody (issue : Option Issue) : List Char :=
  match issue with
  | some i =>
    "## Description\n\n".toList ++
      (if i.body.isEmpty then "Resolves #".toList ++ natToChars i.number else i.body) ++
      "\n\n".toList ++
      ("Closes #".toList ++ natToChars i.number ++ "\n".toList)
  | none =>
    "## Description\n\n".toList ++
      "<!-- Describe your changes here -->\n\n".toList ++
      "## Checklist\n\n".toList ++
      "- [ ] Tests added/updated\n".toList ++
      "- [ ] Documentation updated\n".toList ++
      "- [ ] Code follows project conventions\n".toList

/-- The keyword matcher `contains` of `cmd/create_branch.go`: after ASCII
lowering, a keyword matches when it equals the label, or the label is
strictly longer and the keyword is its prefix (`s[:len(sub)]`) or suffix
(`s[len(s)-len(sub):]`).  All keywords are ASCII, so byte slicing in Go
and character slicing here agree. -/
def containsKW (s : List Char) (subs : List (List Char)) : Bool :=
  let t := s.map toLowerChar
  subs.any fun sub =>
    t = sub ||
      (decide (sub.length < t.length) &&
        (t.take sub.length = sub || t.drop (t.length - sub.length) = sub))

/-- `inferIssueType` from `cmd/create_branch.go`: for each label name in
order, test the seven keyword rules in their switch order and return the
first mapped type; `""` (the empty string) when no label matches.
Labels are modelled by their `Name` field. -/
def inferIssueType : List (List Char) → List Char
  | [] => []
  | name :: rest =>
    if containsKW name ["bug".toList, "fix".toList] then "bugfix".toList
    else if containsKW name ["feature".toList, "enhancement".toList] then "feature".toList
    else if containsKW name ["hotfix".toList, "urgent".toList, "critical".toList] then "hotfix".toList
    else if containsKW name ["docs".toList, "documentation".toList] then "docs".toList
    else if containsKW name ["refactor".toList] then "refactor".toList
    else if containsKW name ["test".toList] then "test".toList
    else if containsKW name ["chore".toList, "maintenance".toList] then "chore".toList
    else inferIssueType rest

/-- No two adjacent hyphens occur in the list. -/
def noAdjHyphens : List Char → Bool
  | [] => true
  | [_] => true
  | c :: d :: rest => !(c == '-' && d == '-') && noAdjHyphens (d :: rest)

/-- Decides membership in the anchored regular language
`[a-z0-9]+(-[a-z0-9]+)*` of the spec: non-empty, every character is a
lowercase alphanumeric or a hyphen, no leading hyphen, no trailing
hyphen, and no two adjacent hyphens.  A word is in that language exactly
when it decomposes into non-empty lowercase-alphanumeric chunks
separated by single hyphens, which is what these five conditions say. -/
def matchesSlugPattern (l : List Char) : Bool :=
  !l.isEmpty && l.all goodChar && !(l.head? == some '-') &&
    !(l.getLast? == some '-') && noAdjHyphens l

/-- Modelled from the spec (section 4.2): the fixed keyword table of the
classifier, one entry per rule in priority order, each keyword set paired
with its mapped type. -/
def typeRules : List (List (List Char) × List Char) :=
  [(["bug".toList, "fix".toList], "bugfix".toList),
   (["feature".toList, "enhancement".toList], "feature".toList),
   (["hotfix".toList, "urgent".toList, "critical".toList], "hotfix".toList),
   (["docs".toList, "documentation".toList], "docs".toList),
   (["refactor".toList], "refactor".toList),
   (["test".toList], "test".toList),
   (["chore".toList, "maintenance".toList], "chore".toList)]

/-- Modelled from the spec (section 4.2): classify one label name by the
first rule of the fixed table whose keyword set matches it, if any. -/
def classifyRule (name : List Char) : Option (List Char) :=
  typeRules.findSome? fun r => if containsKW name r.1 then some r.2 else none

/-- Modelled from the spec (section 4.2): the classifier returns the
mapped type of the first label matching any rule, and absence (encoded
as the empty string, as the code does) when no label matches. -/
def specInferType (labels : List (List Char)) : List Char :=
  (labels.findSome? classifyRule).getD []

/-- Does `pat` occur at the front of `l`? -/
def occursAtFront (pat l : List Char) : Bool :=
  l.take pat.length = pat

/-- Does `pat` occur as a contiguous substring of `l`? -/
def occursIn (pat : List Char) : List Char → Bool
  | [] => occursAtFront pat []
  | c :: rest => occursAtFront pat (c :: rest) || occursIn pat rest

/-- Number of positions of `l` at which `pat` occurs. -/
def countSub (pat : List Char) : List Char → Nat
  | [] => if occursAtFront pat [] then 1 else 0
  | c :: rest => (if occursAtFront pat (c :: rest) then 1 else 0) + countSub pat rest

/-- The seven types the classifier can produce, in rule order. -/
def classifierTypes : List (List Char) :=
  ["bugfix".toList, "feature".toList, "hotfix".toList, "docs".toList,
   "refactor".toList, "test".toList, "chore".toList]

theorem toNat_ofNat_valid (n : Nat) (h : n < 55296) : (Char.ofNat n).toNat = n := by
  have hv : n.isValidChar := Or.inl h
  simp only [Char.ofNat, hv, dif_pos, Char.ofNatAux, Char.toNat, UInt32.toNat,
    BitVec.toNat_ofNatLt]

theorem toLowerChar_toNat (c : Char) :
    (toLowerChar c).toNat =
      if 65 ≤ c.toNat ∧ c.toNat ≤ 90 then c.toNat + 32 else c.toNat := by
  unfold toLowerChar
  by_cases h : 65 ≤ c.toNat ∧ c.toNat ≤ 90
  · rw [if_pos h, if_pos h]
    exact toNat_ofNat_valid _ (by omega)
  · rw [if_neg h, if_neg h]

theorem goodChar_iff (c : Char) :
    goodChar c = true ↔
      (97 ≤ c.toNat ∧ c.toNat ≤ 122) ∨ (48 ≤ c.toNat ∧ c.toNat ≤ 57) ∨ c = '-' := by
  simp only [goodChar, isLowerAlnum, Bool.or_eq_true, Bool.and_eq_true,
    decide_eq_true_eq, beq_iff_eq]
  tauto

theorem goodChar_of_alnum_lowered (c : Char)
    (h : isAlnumGo (toLowerChar c) = true) : goodChar (toLowerChar c) = true := by
  have ht := toLowerChar_toNat c
  simp only [isAlnumGo, Bool.or_eq_true, Bool.and_eq_true, decide_eq_true_eq] at h
  rw [goodChar_iff]
  by_cases hc : 65 ≤ c.toNat ∧ c.toNat ≤ 90
  · rw [if_pos hc] at ht
    left; omega
  · rw [if_neg hc] at ht
    rw [ht] at h ⊢
    rcases h with (h | h) | h
    · left; omega
    · exact absurd h hc
    · right; left; omega

theorem toLowerChar_eq_self_of_good (c : Char) (h : goodChar c = true) :
    toLowerChar c = c := by
  rw [goodChar_iff] at h
  unfold toLowerChar
  rw [if_neg]
  rcases h with h | h | h
  · omega
  · omega
  · subst h; decide

theorem good_ne_slash {c : Char} (h : goodChar c = true) : c ≠ '/' := by
  intro e; subst e; revert h; decide

theorem good_ne_upperG {c : Char} (h : goodChar c = true) : c ≠ 'G' := by
  intro e; subst e; revert h; decide

theorem digitChar_isDigit {m : Nat} (h : m < 10) :
    isDigitChar (Nat.digitChar m) = true := by
  interval_cases m <;> decide

theorem digitVal_digitChar {m : Nat} (h : m < 10) :
    digitVal (Nat.digitChar m) = m := by
  interval_cases m <;> decide

theorem digit_not_hyphen {c : Char} (h : isDigitChar c = true) : ¬(c = '-') := by
  intro e; subst e; revert h; decide


theorem noAdj_tail {c : Char} {l : List Char} (h : noAdjHyphens (c :: l) = true) :
    noAdjHyphens l = true := by
  cases l with
  | nil => rfl
  | cons d rest =>
    simp only [noAdjHyphens, Bool.and_eq_true] at h
    exact h.2

theorem squeeze_cons_shape :
    ∀ (rest : List Char) (c : Char), ∃ t, squeezeHyphens (c :: rest) = c :: t := by
  intro rest
  induction rest with
  | nil => exact fun c => ⟨[], rfl⟩
  | cons d rest' ih =>
    intro c
    cases hcd : (c == '-' && d == '-') with
    | true =>
      obtain ⟨t, ht⟩ := ih d
      have hc : c = d := by
        simp only [Bool.and_eq_true, beq_iff_eq] at hcd
        rw [hcd.1, hcd.2]
      refine ⟨t, ?_⟩
      simp only [squeezeHyphens, hcd]
      simp only [if_pos]
      rw [ht, hc]
    | false =>
      refine ⟨squeezeHyphens (d :: rest'), ?_⟩
      simp [squeezeHyphens, hcd]

theorem noAdj_squeeze : ∀ l : List Char, noAdjHyphens (squeezeHyphens l) = true := by
  intro l
  induction l with
  | nil => rfl
  | cons c rest ih =>
    cases rest with
    | nil => rfl
    | cons d rest' =>
      cases hcd : (c == '-' && d == '-') with
      | true => simpa only [squeezeHyphens, hcd, if_pos] using ih
      | false =>
        obtain ⟨t, ht⟩ := squeeze_cons_shape rest' d
        simp only [squeezeHyphens, hcd]
        simp only [Bool.false_eq_true, if_false]
        rw [ht]
        simp only [noAdjHyphens, Bool.and_eq_true, Bool.not_eq_true']
        exact ⟨hcd, by rw [← ht]; exact ih⟩

theorem mem_squeeze {a : Char} : ∀ {l : List Char}, a ∈ squeezeHyphens l → a ∈ l := by
  intro l
  induction l with
  | nil => exact fun h => h
  | cons c rest ih =>
    cases rest with
    | nil => exact fun h => h
    | cons d rest' =>
      intro h
      cases hcd : (c == '-' && d == '-') with
      | true =>
        simp only [squeezeHyphens, hcd, if_pos] at h
        exact List.mem_cons_of_mem c (ih h)
      | false =>
        simp only [squeezeHyphens, hcd, Bool.false_eq_true, if_false] at h
        rcases List.mem_cons.mp h with h | h
        · exact h ▸ List.mem_cons_self c _
        · exact List.mem_cons_of_mem c (ih h)

theorem squeeze_eq_self : ∀ {l : List Char}, noAdjHyphens l = true → squeezeHyphens l = l := by
  intro l
  induction l with
  | nil => exact fun _ => rfl
  | cons c rest ih =>
    cases rest with
    | nil => exact fun _ => rfl
    | cons d rest' =>
      intro h
      simp only [noAdjHyphens, Bool.and_eq_true, Bool.not_eq_true'] at h
      simp only [squeezeHyphens, h.1, Bool.false_eq_true, if_false]
      rw [ih h.2]

theorem dropTrailing_shape (c : Char) (rest : List Char) :
    dropTrailingHyphens (c :: rest) = [] ∨
      dropTrailingHyphens (c :: rest) = c :: dropTrailingHyphens rest := by
  cases h : ((dropTrailingHyphens rest).isEmpty && c == '-') with
  | true => left; simp [dropTrailingHyphens, h]
  | false => right; simp [dropTrailingHyphens, h]

theorem mem_dropTrailing {a : Char} :
    ∀ {l : List Char}, a ∈ dropTrailingHyphens l → a ∈ l := by
  intro l
  induction l with
  | nil => exact fun h => h
  | cons c rest ih =>
    intro h
    rcases dropTrailing_shape c rest with hs | hs
    · rw [hs] at h; cases h
    · rw [hs] at h
      rcases List.mem_cons.mp h with h | h
      · exact h ▸ List.mem_cons_self c _
      · exact List.mem_cons_of_mem c (ih h)

theorem length_dropTrailing_le : ∀ l : List Char,
    (dropTrailingHyphens l).length ≤ l.length := by
  intro l
  induction l with
  | nil => exact Nat.le_refl 0
  | cons c rest ih =>
    rcases dropTrailing_shape c rest with hs | hs
    · rw [hs]; exact Nat.zero_le _
    · rw [hs]; simpa using ih

theorem getLast?_dropTrailing : ∀ l : List Char,
    dropTrailingHyphens l = [] ∨
      ∃ a, (dropTrailingHyphens l).getLast? = some a ∧ ¬(a = '-') := by
  intro l
  induction l with
  | nil => left; rfl
  | cons c rest ih =>
    cases h : ((dropTrailingHyphens rest).isEmpty && c == '-') with
    | true => left; simp [dropTrailingHyphens, h]
    | false =>
      right
      have hs : dropTrailingHyphens (c :: rest) = c :: dropTrailingHyphens rest := by
        simp [dropTrailingHyphens, h]
      rcases ih with hnil | ⟨a, ha, hane⟩
      · refine ⟨c, ?_, ?_⟩
        · rw [hs, hnil]; rfl
        · rw [hnil] at h
          simp only [List.isEmpty_nil, Bool.true_and, beq_eq_false_iff_ne] at h
          exact h
      · refine ⟨a, ?_, hane⟩
        rw [hs]
        cases hd : dropTrailingHyphens rest with
        | nil => rw [hd] at ha; cases ha
        | cons b t =>
          rw [hd] at ha
          rw [List.getLast?_cons_cons]
          exact ha

theorem noAdj_dropTrailing : ∀ l : List Char,
    noAdjHyphens l = true → noAdjHyphens (dropTrailingHyphens l) = true := by
  intro l
  induction l with
  | nil => exact fun _ => rfl
  | cons c rest ih =>
    intro h
    rcases dropTrailing_shape c rest with hs | hs
    · rw [hs]; rfl
    · rw [hs]
      cases rest with
      | nil => rfl
      | cons d rest₂ =>
        rcases dropTrailing_shape d rest₂ with hd | hd
        · rw [hd]; rfl
        · rw [hd]
          simp only [noAdjHyphens, Bool.and_eq_true] at h ⊢
          refine ⟨h.1, ?_⟩
          rw [← hd]
          exact ih h.2

theorem dropTrailing_cons (c : Char) (rest : List Char) :
    dropTrailingHyphens (c :: rest) =
      if ((dropTrailingHyphens rest).isEmpty && c == '-') = true then []
      else c :: dropTrailingHyphens rest := rfl

theorem dropTrailing_eq_self : ∀ l : List Char,
    ¬(l.getLast? = some '-') → dropTrailingHyphens l = l := by
  intro l
  induction l with
  | nil => exact fun _ => rfl
  | cons c rest ih =>
    intro h
    cases rest with
    | nil =>
      have hcb : (c == '-') = false :=
        beq_eq_false_iff_ne.mpr fun e => h (by rw [e]; rfl)
      rw [dropTrailing_cons]
      simp [hcb]
      rfl
    | cons d rest₂ =>
      rw [List.getLast?_cons_cons] at h
      have hr := ih h
      rw [dropTrailing_cons, hr]
      simp

theorem noAdj_dropWhile (p : Char → Bool) : ∀ l : List Char,
    noAdjHyphens l = true → noAdjHyphens (l.dropWhile p) = true := by
  intro l
  induction l with
  | nil => exact fun _ => rfl
  | cons c rest ih =>
    intro h
    rw [List.dropWhile_cons]
    split
    · exact ih (noAdj_tail h)
    · exact h

theorem noAdj_take : ∀ (l : List Char) (n : Nat),
    noAdjHyphens l = true → noAdjHyphens (l.take n) = true := by
  intro l
  induction l with
  | nil => intro n _; simp only [List.take_nil]; rfl
  | cons c rest ih =>
    intro n h
    cases n with
    | zero => rfl
    | succ m =>
      rw [List.take_succ_cons]
      cases rest with
      | nil => simp only [List.take_nil]; rfl
      | cons d rest₂ =>
        cases m with
        | zero => rfl
        | succ k =>
          rw [List.take_succ_cons]
          simp only [noAdjHyphens, Bool.and_eq_true] at h ⊢
          refine ⟨h.1, ?_⟩
          have := ih (k + 1) h.2
          rw [List.take_succ_cons] at this
          exact this

theorem head?_dropTrailing_sub {a : Char} : ∀ l : List Char,
    (dropTrailingHyphens l).head? = some a → l.head? = some a := by
  intro l
  cases l with
  | nil => exact fun h => h
  | cons c rest =>
    intro h
    rcases dropTrailing_shape c rest with hs | hs
    · rw [hs] at h; cases h
    · rw [hs] at h; exact h

theorem head?_take_sub {a : Char} (l : List Char) (n : Nat)
    (h : (l.take n).head? = some a) : l.head? = some a := by
  cases n with
  | zero => cases h
  | succ m =>
    cases l with
    | nil => cases h
    | cons c rest => rw [List.take_succ_cons] at h; exact h

theorem head?_dropWhile_hyphen {a : Char} (l : List Char)
    (h : (l.dropWhile fun c => c == '-').head? = some a) : ¬(a = '-') := by
  have hw := List.head?_dropWhile_not (fun c => c == '-') l
  rw [h] at hw
  simp only [beq_eq_false_iff_ne] at hw
  exact hw

theorem mem_trim {a : Char} (l : List Char) (h : a ∈ trimHyphens l) : a ∈ l := by
  unfold trimHyphens at h
  exact (List.dropWhile_sublist _).subset (mem_dropTrailing h)

theorem mem_truncate {a : Char} (l : List Char) (h : a ∈ truncate60 l) : a ∈ l := by
  unfold truncate60 at h
  split at h
  · exact List.take_subset 60 l (mem_dropTrailing h)
  · exact h

theorem slugify_good (s : List Char) : ∀ c ∈ slugify s, goodChar c = true := by
  intro c hc
  unfold slugify at hc
  have h1 := mem_trim _ (mem_truncate _ hc)
  have h2 := mem_squeeze h1
  unfold mapNonAlnum at h2
  rcases List.mem_map.mp h2 with ⟨y, hy, hyc⟩
  rcases List.mem_map.mp hy with ⟨z, _, hzy⟩
  subst hzy
  by_cases ha : isAlnumGo (toLowerChar z) = true
  · rw [if_pos ha] at hyc
    rw [← hyc]
    exact goodChar_of_alnum_lowered z ha
  · rw [if_neg ha] at hyc
    rw [← hyc]
    decide

theorem slugify_noAdj (s : List Char) : noAdjHyphens (slugify s) = true := by
  unfold slugify truncate60 trimHyphens
  have h2 := noAdj_squeeze (mapNonAlnum (s.map toLowerChar))
  have h3 := noAdj_dropWhile (fun c => c == '-') _ h2
  have h4 := noAdj_dropTrailing _ h3
  split
  · exact noAdj_dropTrailing _ (noAdj_take _ 60 h4)
  · exact h4

theorem slugify_head (s : List Char) : ¬((slugify s).head? = some '-') := by
  intro h
  unfold slugify truncate60 at h
  split at h
  · exact head?_dropWhile_hyphen _
      (head?_dropTrailing_sub _ (head?_take_sub _ 60 (head?_dropTrailing_sub _ h)))
      rfl
  · exact head?_dropWhile_hyphen _ (head?_dropTrailing_sub _ h) rfl

theorem slugify_last (s : List Char) : ¬((slugify s).getLast? = some '-') := by
  intro h
  unfold slugify truncate60 at h
  split at h
  · rcases getLast?_dropTrailing (List.take 60
        (trimHyphens (squeezeHyphens (mapNonAlnum (s.map toLowerChar))))) with hn | ⟨a, ha, hane⟩
    · rw [hn] at h; cases h
    · rw [ha] at h
      exact hane (Option.some.inj h)
  · unfold trimHyphens at h
    rcases getLast?_dropTrailing ((squeezeHyphens
        (mapNonAlnum (s.map toLowerChar))).dropWhile fun c => c == '-') with hn | ⟨a, ha, hane⟩
    · rw [hn] at h; cases h
    · rw [ha] at h
      exact hane (Option.some.inj h)

theorem slugify_len (s : List Char) : (slugify s).length ≤ 60 := by
  unfold slugify truncate60
  split
  · calc (dropTrailingHyphens _).length ≤ _ := length_dropTrailing_le _
      _ ≤ 60 := by rw [List.length_take]; exact Nat.min_le_left _ _
  · omega

theorem slugify_eq_self (l : List Char)
    (hgood : ∀ c ∈ l, goodChar c = true)
    (hadj : noAdjHyphens l = true)
    (hhead : ¬(l.head? = some '-'))
    (hlast : ¬(l.getLast? = some '-'))
    (hlen : l.length ≤ 60) : slugify l = l := by
  have h1 : l.map toLowerChar = l := by
    rw [List.map_congr_left fun a ha => toLowerChar_eq_self_of_good a (hgood a ha)]
    exact List.map_id l
  have h2 : mapNonAlnum l = l := by
    unfold mapNonAlnum
    have he : ∀ a ∈ l, (if isAlnumGo a then a else '-') = id a := by
      intro a ha
      have hg := hgood a ha
      rw [goodChar_iff] at hg
      rcases hg with hg | hg | hg
      · rw [if_pos]
        · rfl
        · simp only [isAlnumGo, Bool.or_eq_true, Bool.and_eq_true, decide_eq_true_eq]
          omega
      · rw [if_pos]
        · rfl
        · simp only [isAlnumGo, Bool.or_eq_true, Bool.and_eq_true, decide_eq_true_eq]
          omega
      · subst hg; rw [ite_self]; rfl
    rw [List.map_congr_left he]
    exact List.map_id l
  have h4 : l.dropWhile (fun c => c == '-') = l := by
    cases l with
    | nil => rfl
    | cons c rest =>
      have hcb : (c == '-') = false :=
        beq_eq_false_iff_ne.mpr fun e => hhead (by rw [e]; rfl)
      rw [List.dropWhile_cons]
      simp [hcb]
  unfold slugify trimHyphens
  rw [h1, h2, squeeze_eq_self hadj, h4, dropTrailing_eq_self l hlast]
  unfold truncate60
  rw [if_neg (by omega)]

/-- C6: `slugify` is idempotent: for every string `s`,
`slugify (slugify s) = slugify s`. -/
theorem slugify_idem (s : List Char) : slugify (slugify s) = slugify s :=
  slugify_eq_self _ (slugify_good s) (slugify_noAdj s) (slugify_head s)
    (slugify_last s) (slugify_len s)

/-- C5: for every input string, the output of `slugify`, when non-empty,
matches the anchored pattern `[a-z0-9]+(-[a-z0-9]+)*` (as decided by
`matchesSlugPattern`) and has length at most 60. -/
theorem slugify_matches_pattern (s : List Char) (h : slugify s ≠ []) :
    matchesSlugPattern (slugify s) = true ∧ (slugify s).length ≤ 60 := by
  refine ⟨?_, slugify_len s⟩
  unfold matchesSlugPattern
  have hne : (slugify s).isEmpty = false := by
    cases hd : slugify s with
    | nil => exact absurd hd h
    | cons a t => rfl
  simp only [Bool.and_eq_true, Bool.not_eq_true', List.all_eq_true,
    beq_eq_false_iff_ne, hne]
  refine ⟨⟨⟨⟨trivial, slugify_good s⟩, ?_⟩, ?_⟩, slugify_noAdj s⟩
  · exact slugify_head s
  · exact slugify_last s

/-- C5 witness: a concrete non-empty slug on which the pattern and the
length bound are checked by applying `slugify_matches_pattern`. -/
theorem slugify_matches_pattern_witness :
    slugify ("Add login page!!".toList) ≠ [] ∧
      (matchesSlugPattern (slugify ("Add login page!!".toList)) = true ∧
        (slugify ("Add login page!!".toList)).length ≤ 60) :=
  ⟨by decide, slugify_matches_pattern ("Add login page!!".toList) (by decide)⟩

theorem natToCharsAux_acc : ∀ (fuel n : Nat) (acc : List Char),
    natToCharsAux fuel n acc = natToCharsAux fuel n [] ++ acc := by
  intro fuel
  induction fuel with
  | zero => intro n acc; rfl
  | succ f ih =>
    intro n acc
    simp only [natToCharsAux]
    by_cases h : n < 10
    · rw [if_pos h, if_pos h]; rfl
    · rw [if_neg h, if_neg h]
      rw [ih (n / 10) (Nat.digitChar (n % 10) :: acc),
        ih (n / 10) [Nat.digitChar (n % 10)]]
      rw [List.append_assoc]
      rfl

theorem charsToNat_append_digit (xs : List Char) (c : Char) :
    charsToNat (xs ++ [c]) = charsToNat xs * 10 + digitVal c := by
  unfold charsToNat
  rw [List.foldl_append]
  rfl

theorem charsToNat_natToCharsAux : ∀ fuel : Nat, ∀ n : Nat, n < 10 ^ fuel →
    charsToNat (natToCharsAux fuel n []) = n := by
  intro fuel
  induction fuel with
  | zero =>
    intro n h
    have : n = 0 := by simpa using h
    subst this; rfl
  | succ f ih =>
    intro n h
    simp only [natToCharsAux]
    by_cases hlt : n < 10
    · rw [if_pos hlt]
      have hm : n % 10 = n := Nat.mod_eq_of_lt hlt
      show charsToNat ([] ++ [Nat.digitChar (n % 10)]) = n
      rw [charsToNat_append_digit, hm, digitVal_digitChar hlt]
      simp [charsToNat]
    · rw [if_neg hlt]
      rw [natToCharsAux_acc]
      rw [charsToNat_append_digit]
      have hdiv : n / 10 < 10 ^ f := by
        have hp : 10 ^ (f + 1) = 10 ^ f * 10 := pow_succ 10 f
        rw [hp] at h
        exact Nat.div_lt_of_lt_mul (Nat.mul_comm (10 ^ f) 10 ▸ h)
      rw [ih (n / 10) hdiv, digitVal_digitChar (Nat.mod_lt n (by norm_num))]
      omega

theorem charsToNat_natToChars (n : Nat) : charsToNat (natToChars n) = n := by
  unfold natToChars
  exact charsToNat_natToCharsAux (n + 1) n
    (lt_of_lt_of_le (Nat.lt_pow_self (by norm_num) n)
      (Nat.pow_le_pow_right (by norm_num) (Nat.le_succ n)))

theorem natToCharsAux_digits : ∀ (fuel n : Nat), ∀ c ∈ natToCharsAux fuel n [],
    isDigitChar c = true := by
  intro fuel
  induction fuel with
  | zero => intro n c hc; cases hc
  | succ f ih =>
    intro n c hc
    simp only [natToCharsAux] at hc
    by_cases h : n < 10
    · rw [if_pos h] at hc
      rw [List.mem_singleton] at hc
      subst hc
      exact digitChar_isDigit (Nat.mod_lt n (by norm_num))
    · rw [if_neg h, natToCharsAux_acc] at hc
      rcases List.mem_append.mp hc with hc | hc
      · exact ih (n / 10) c hc
      · rw [List.mem_singleton] at hc
        subst hc
        exact digitChar_isDigit (Nat.mod_lt n (by norm_num))

theorem natToChars_digits (n : Nat) : ∀ c ∈ natToChars n, isDigitChar c = true :=
  natToCharsAux_digits (n + 1) n

theorem natToChars_ne_nil (n : Nat) : natToChars n ≠ [] := by
  unfold natToChars
  simp only [natToCharsAux]
  by_cases h : n < 10
  · rw [if_pos h]; exact List.cons_ne_nil _ _
  · rw [if_neg h, natToCharsAux_acc]
    exact List.append_ne_nil_of_right_ne_nil _ (List.cons_ne_nil _ _)

theorem takeWhile_dropWhile_append {p : Char → Bool} : ∀ l₁ l₂ : List Char,
    (∀ c ∈ l₁, p c = true) → (∀ b, l₂.head? = some b → p b = false) →
    (l₁ ++ l₂).takeWhile p = l₁ ∧ (l₁ ++ l₂).dropWhile p = l₂ := by
  intro l₁
  induction l₁ with
  | nil =>
    intro l₂ _ hb
    cases l₂ with
    | nil => exact ⟨rfl, rfl⟩
    | cons b t =>
      have hpb := hb b rfl
      constructor
      · simp [List.takeWhile_cons, hpb]
      · simp [List.dropWhile_cons, hpb]
  | cons a t ih =>
    intro l₂ ha hb
    have hpa : p a = true := ha a (List.mem_cons_self a t)
    have iht := ih l₂ (fun c hc => ha c (List.mem_cons_of_mem a hc)) hb
    constructor
    · rw [List.cons_append, List.takeWhile_cons, hpa]
      simp only [if_pos]
      rw [iht.1]
    · rw [List.cons_append, List.dropWhile_cons]
      simp only [hpa, if_pos]
      exact iht.2

theorem matchGHAt_none_of_head (l : List Char) (h : ¬(l.head? = some '/')) :
    matchGHAt l = none := by
  unfold matchGHAt
  rw [if_neg]
  intro he
  cases l with
  | nil => simp [ghMarker] at he
  | cons c rest =>
    rw [List.take_succ_cons] at he
    simp only [ghMarker, List.cons.injEq] at he
    exact h (by rw [he.1]; rfl)

theorem findGH_append_of_no_slash : ∀ pre rest : List Char,
    (∀ c ∈ pre, ¬(c = '/')) → findGHNumber (pre ++ rest) = findGHNumber rest := by
  intro pre
  induction pre with
  | nil => intro rest _; rfl
  | cons a t ih =>
    intro rest h
    have ha : ¬(a = '/') := h a (List.mem_cons_self a t)
    have hm : matchGHAt (a :: (t ++ rest)) = none :=
      matchGHAt_none_of_head _ fun he => ha (Option.some.inj he)
    rw [List.cons_append]
    simp only [findGHNumber, hm]
    exact ih rest fun c hc => h c (List.mem_cons_of_mem a hc)

theorem findGH_none_of_good : ∀ l : List Char, (∀ c ∈ l, goodChar c = true) →
    findGHNumber l = none := by
  intro l
  induction l with
  | nil => intro _; rfl
  | cons c rest ih =>
    intro h
    have hc : ¬(c = '/') := good_ne_slash (h c (List.mem_cons_self c rest))
    have hm : matchGHAt (c :: rest) = none :=
      matchGHAt_none_of_head _ fun he => hc (Option.some.inj he)
    simp only [findGHNumber, hm]
    exact ih fun a ha => h a (List.mem_cons_of_mem c ha)

theorem matchGHAt_slash_good (slug : List Char) (h : ∀ c ∈ slug, goodChar c = true) :
    matchGHAt ('/' :: slug) = none := by
  unfold matchGHAt
  rw [if_neg]
  intro he
  rw [List.take_succ_cons] at he
  cases slug with
  | nil => simp [ghMarker] at he
  | cons b t =>
    rw [List.take_succ_cons] at he
    simp only [ghMarker, List.cons.injEq] at he
    exact good_ne_upperG (h b (List.mem_cons_self b t)) he.2.1

theorem valid_no_slash (t : List Char) (h : ValidIssueType t = true) :
    ∀ c ∈ t, ¬(c = '/') := by
  have hmem : t ∈ issueTypeStrings := by
    unfold ValidIssueType at h
    rcases List.any_eq_true.mp h with ⟨x, hx, hxt⟩
    rw [beq_iff_eq] at hxt
    exact hxt ▸ hx
  fin_cases hmem <;> decide

theorem matchGHAt_marker (ds tail : List Char) (hds : ds ≠ [])
    (hdigits : ∀ c ∈ ds, isDigitChar c = true) :
    matchGHAt ('/' :: 'G' :: 'H' :: '-' :: (ds ++ '-' :: tail)) =
      some (charsToNat ds) := by
  have htk : ('/' :: 'G' :: 'H' :: '-' :: (ds ++ '-' :: tail)).take 4 = ghMarker := rfl
  have hdp : ('/' :: 'G' :: 'H' :: '-' :: (ds ++ '-' :: tail)).drop 4 =
      ds ++ '-' :: tail := rfl
  obtain ⟨htake, hdrop⟩ := takeWhile_dropWhile_append ds ('-' :: tail) hdigits
    (fun b hb => by rw [← Option.some.inj hb]; decide)
  unfold matchGHAt
  rw [if_pos htk, hdp, htake, hdrop]
  rw [if_neg (by cases ds with | nil => exact absurd rfl hds | cons a u => exact fun hx => by cases hx)]
  simp

/-- C1: round trip.  For every valid issue type `t`, every title, and
every issue number `n > 0`, extracting the issue number from the
generated branch name recovers `n`:
`extractIssueFromBranch (GenerateName t n title) = n`. -/
theorem extract_generate_roundtrip (t : List Char) (n : Int) (title : List Char)
    (hvalid : ValidIssueType t = true) (hn : 0 < n) :
    extractIssueFromBranch (GenerateName t n title) = n := by
  unfold GenerateName
  rw [if_pos hn]
  unfold extractIssueFromBranch
  rw [findGH_append_of_no_slash t _ (valid_no_slash t hvalid)]
  have hm := matchGHAt_marker (natToChars n.toNat) (slugify title)
    (natToChars_ne_nil n.toNat) (natToChars_digits n.toNat)
  simp only [findGHNumber, hm, charsToNat_natToChars]
  omega

/-- C1 witness: the round trip checked on the concrete branch
`feature/GH-42-add-login-page` by applying `extract_generate_roundtrip`. -/
theorem extract_generate_roundtrip_witness :
    ValidIssueType ("feature".toList) = true ∧ (0 : Int) < 42 ∧
      extractIssueFromBranch
        (GenerateName ("feature".toList) 42 ("Add login page!!".toList)) = 42 :=
  ⟨by decide, by decide,
    extract_generate_roundtrip ("feature".toList) 42 ("Add login page!!".toList)
      (by decide) (by decide)⟩

/-- C9: a branch name generated without an issue number (`n = 0`) never
yields a spurious issue number on extraction: for every valid issue type
and title, `extractIssueFromBranch (GenerateName t 0 title) = 0` (the
code encodes absence as `0`). -/
theorem extract_generate_no_issue (t title : List Char)
    (hvalid : ValidIssueType t = true) :
    extractIssueFromBranch (GenerateName t 0 title) = 0 := by
  unfold GenerateName
  rw [if_neg (by omega)]
  unfold extractIssueFromBranch
  rw [findGH_append_of_no_slash t _ (valid_no_slash t hvalid)]
  have hm := matchGHAt_slash_good (slugify title) (slugify_good title)
  simp only [findGHNumber, hm]
  rw [findGH_none_of_good (slugify title) (slugify_good title)]

/-- C9 witness: checked on the concrete branch `chore/cleanup` by
applying `extract_generate_no_issue`. -/
theorem extract_generate_no_issue_witness :
    ValidIssueType ("chore".toList) = true ∧
      extractIssueFromBranch (GenerateName ("chore".toList) 0 ("cleanup".toList)) = 0 :=
  ⟨by decide,
    extract_generate_no_issue ("chore".toList) ("cleanup".toList) (by decide)⟩

/-- C2: the classifier's keyword matching is exact case-insensitive
equality, prefix match, or suffix match, not substring search: the label
`bug` maps to `bugfix`, `documentation-needed` maps to `docs` (prefix
rule on the keyword `documentation`), while `needs-documentation-review`
matches nothing and yields absence (the empty string). -/
theorem inferIssueType_keyword_asymmetry :
    inferIssueType ["bug".toList] = "bugfix".toList ∧
      inferIssueType ["documentation-needed".toList] = "docs".toList ∧
      inferIssueType ["needs-documentation-review".toList] = [] := by
  exact ⟨by decide, by decide, by decide⟩

/-- C3 counterexample: on the branch `feature/GH-42-add-login-page` the
code does not produce the title `Add login page`, because after the type
part is dropped the remainder starts with `GH-42-`, whose leading
characters are not digits, so the digit-prefix strip does not fire. -/
theorem generateTitleFromBranch_not_claimed :
    generateTitleFromBranch ("feature/GH-42-add-login-page".toList) ≠
      "Add login page".toList := by decide

/-- C3 amended: `generateTitleFromBranch "feature/GH-42-add-login-page"`
equals `GH 42 add login page`: the `GH-42-` part survives the digit
strip, every hyphen becomes a space, and the first character (already
`G`) is uppercased. -/
theorem generateTitleFromBranch_example :
    generateTitleFromBranch ("feature/GH-42-add-login-page".toList) =
      "GH 42 add login page".toList := by decide

/-- C4: `GenerateName t n title` is `<t>/GH-<n>-<slug(title)>` whenever
`n > 0` and `<t>/<slug(title)>` otherwise; in particular
`GenerateName feature 42 "Add login page!!"` is
`feature/GH-42-add-login-page` and `GenerateName chore 0 "cleanup"` is
`chore/cleanup`. -/
theorem generateName_format :
    (∀ (t : List Char) (n : Int) (title : List Char),
      GenerateName t n title =
        if 0 < n then
          t ++ "/GH-".toList ++ natToChars n.toNat ++ "-".toList ++ slugify title
        else t ++ "/".toList ++ slugify title) ∧
      GenerateName ("feature".toList) 42 ("Add login page!!".toList) =
        "feature/GH-42-add-login-page".toList ∧
      GenerateName ("chore".toList) 0 ("cleanup".toList) = "chore/cleanup".toList := by
  refine ⟨?_, by decide, by decide⟩
  intro t n title
  have e1 : "/GH-".toList = ['/', 'G', 'H', '-'] := rfl
  have e2 : "-".toList = ['-'] := rfl
  have e3 : "/".toList = ['/'] := rfl
  unfold GenerateName
  by_cases h : 0 < n
  · rw [if_pos h, if_pos h, e1, e2]
    simp [List.append_assoc]
  · rw [if_neg h, if_neg h, e3]
    simp [List.append_assoc]

/-- C7: the classifier returns the mapped type of the first label (in
the given order) matching any rule of the fixed keyword table (the rules
being tested per label in the switch order bug/fix, feature/enhancement,
hotfix/urgent/critical, docs/documentation, refactor, test,
chore/maintenance), and absence when no label matches; being a total
function, it never errors.  Stated as a refinement: `inferIssueType`
agrees with the spec-side `specInferType` everywhere. -/
theorem inferIssueType_eq_spec (labels : List (List Char)) :
    inferIssueType labels = specInferType labels := by
  induction labels with
  | nil => rfl
  | cons name rest ih =>
    simp only [specInferType] at ih ⊢
    simp only [inferIssueType, classifyRule, typeRules, List.findSome?_cons,
      List.findSome?_nil]
    split_ifs <;> simp_all

/-- C10: the classifier's result is always one of the seven types of its
rule table or absent (the empty string); in particular it never returns
the `IssueType` members `release` or `internal`. -/
theorem inferIssueType_range (labels : List (List Char)) :
    (inferIssueType labels = [] ∨ inferIssueType labels ∈ classifierTypes) ∧
      inferIssueType labels ≠ "release".toList ∧
      inferIssueType labels ≠ "internal".toList := by
  induction labels with
  | nil => exact ⟨Or.inl rfl, by decide, by decide⟩
  | cons name rest ih =>
    simp only [inferIssueType]
    split_ifs <;>
      first
        | exact ih
        | exact ⟨Or.inr (by decide), by decide, by decide⟩

set_option maxRecDepth 8000 in
/-- C8: with an issue present, the PR body is the `## Description`
heading, then the issue body verbatim if non-empty and otherwise
`Resolves #N`, then a blank line and `Closes #N`; with no issue it is
the `## Description` heading with an HTML placeholder comment followed
by a `## Checklist` heading with exactly three unchecked items.  The
concrete occurrences of `Closes #7` and `Resolves #7` on an issue with
empty body are checked as substrings. -/
theorem generatePRBody_spec :
    (∀ i : Issue,
      generatePRBody (some i) =
        "## Description\n\n".toList ++
          (if i.body = [] then "Resolves #".toList ++ natToChars i.number
           else i.body) ++
          "\n\n".toList ++ "Closes #".toList ++ natToChars i.number ++ "\n".toList) ∧
      generatePRBody none =
        ("## Description\n\n<!-- Describe your changes here -->\n\n## Checklist\n\n- [ ] Tests added/updated\n- [ ] Documentation updated\n- [ ] Code follows project conventions\n").toList ∧
      countSub ("- [ ] ".toList) (generatePRBody none) = 3 ∧
      occursIn ("Closes #7".toList) (generatePRBody (some ⟨7, []⟩)) = true ∧
      occursIn ("Resolves #7".toList) (generatePRBody (some ⟨7, []⟩)) = true := by
  refine ⟨?_, by decide, by decide, by decide, by decide⟩
  intro i
  rcases i with ⟨num, body⟩
  cases body with
  | nil => simp [generatePRBody, List.append_assoc]
  | cons b t => simp [generatePRBody, List.append_assoc]
